import Mathlib

/-!
Verification of the multi-tenant knowledge-base retrieval engine:
entity extraction, document processing and index synchronization,
cross-business relations, and hybrid search ranking.

The entity-extraction splitting and TF-IDF configuration are embedded from
the source snippets of `entity_extractor.py` shown in
`backend/my/FILE_RENAMING_SUMMARY.md`; the remaining components are modelled
from the specification, as noted on each definition.
-/

/-! ### Entity extraction: sentence splitting (from the source) -/

/-- Hard sentence delimiters of the source regex: the characters that always
split, namely the CJK delimiters and newline characters. -/
def isHardDelim (c : Char) : Bool :=
  c == '。' || c == '！' || c == '？' || c == '；' || c == '\n' || c == '\r'

/-- ASCII sentence delimiters of the source regex, which split only when
followed by whitespace or end of input (the lookahead group). -/
def isSoftDelim (c : Char) : Bool :=
  c == '.' || c == '!' || c == '?' || c == ';'

/-- Whitespace test used by the lookahead of the source regex. -/
def isSpaceChar (c : Char) : Bool :=
  c == ' ' || c == '\t' || c == '\n' || c == '\r' || c == '\x0b' || c == '\x0c'

/-- True when the remaining input is empty or starts with whitespace:
the lookahead condition of the source regex. -/
def spaceOrEnd : List Char → Bool
  | [] => true
  | c :: _ => isSpaceChar c

/-- Worker of the regex split: walks the text, closing a piece at every
delimiter match.  The lookahead character is not consumed, matching the
non-consuming lookahead of the source regex. -/
def reSplitAux : List Char → List Char → List (List Char)
  | [], acc => [acc.reverse]
  | c :: rest, acc =>
    if isHardDelim c then
      acc.reverse :: reSplitAux rest []
    else if isSoftDelim c && spaceOrEnd rest then
      acc.reverse :: reSplitAux rest []
    else
      reSplitAux rest (c :: acc)

/-- The sentence-delimiter split of the source, including the empty pieces
produced between consecutive delimiters, as the source regex split does. -/
def reSplit (text : List Char) : List (List Char) :=
  reSplitAux text []

/-- The fixed-length chunking branch of the source: chunk size is the larger
of 100 and a fifth of the text length, and chunks are taken at every multiple
of the chunk size. -/
def chunkText (text : List Char) : List (List Char) :=
  let size := max 100 (text.length / 5)
  (List.range ((text.length + size - 1) / size)).map
    (fun k => (text.drop (k * size)).take size)

/-- The source's text-to-pseudo-document segmentation: sentence split first;
when fewer than three sentences result, fall back to fixed-length chunking. -/
def splitTextToSentences (text : List Char) : List (List Char) :=
  let sentences := reSplit text
  if sentences.length < 3 then chunkText text else sentences

/-! ### Entity extraction: rule-based method and tokenization -/

/-- Worker collecting maximal runs of alphanumeric characters. -/
def runsAux : List Char → List Char → List (List Char)
  | [], acc => if acc.isEmpty then [] else [acc.reverse]
  | c :: rest, acc =>
    if c.isAlphanum then
      runsAux rest (c :: acc)
    else if acc.isEmpty then
      runsAux rest []
    else
      acc.reverse :: runsAux rest []

/-- Word tokens of a text: maximal alphanumeric runs of length at least two,
as the vectorizer's default token pattern selects. -/
def tokenize (text : List Char) : List (List Char) :=
  (runsAux text []).filter (fun t => 2 ≤ t.length)

/-- Modelled from the spec: rule-based extraction (`_extract_by_rules` is not
in the source tree) is deterministic pattern matching over the text's tokens,
deduplicated in order of appearance and truncated to the requested bound. -/
def extractByRules (text : List Char) (maxEntities : Nat) : List (List Char) :=
  ((tokenize text).dedup).take maxEntities

/-! ### Entity extraction: TF-IDF method (parameters from the source) -/

/-- The vectorizer's minimum document frequency, 1 in the source. -/
def min_df : Nat := 1

/-- The vectorizer's maximum document frequency, the fixed fraction 1.0 of
the source's repaired configuration. -/
def max_df : ℚ := 1

/-- The absolute document count the fractional threshold corresponds to,
as the vectorizer computes it from the number of fitted documents. -/
def maxDocCount (nDocs : Nat) : Nat :=
  (⌊max_df * (nDocs : ℚ)⌋).toNat

/-- The vectorizer's parameter-conflict test: the fit fails when the maximum
document count falls below the minimum document count. -/
def tfidfParamConflict (nDocs : Nat) : Bool :=
  decide (maxDocCount nDocs < min_df)

/-- The vectorizer's failure message for the parameter conflict. -/
def tfidfConflictMessage : String :=
  "max_df corresponds to fewer documents than min_df"

/-- Modelled from the spec: TF-IDF scoring over the pseudo-documents (the
scoring body of `_extract_by_tfidf` is not in the source tree): each term is
scored by total term frequency times a smooth inverse document frequency,
and the highest-scoring terms are returned. -/
def tfidfRank (sentences : List (List Char)) (maxEntities : Nat) :
    List (List Char) :=
  let docs := sentences.map tokenize
  let vocab := docs.flatten.dedup
  let n := docs.length
  let score := fun (t : List Char) =>
    ((docs.map (fun d => d.count t)).sum : ℚ) *
      ((1 + (n : ℚ)) / (1 + ((docs.filter (fun d => decide (t ∈ d))).length : ℚ)))
  let scored := vocab.map (fun t => (t, score t))
  let sorted := List.insertionSort (fun a b => b.2 ≤ a.2) scored
  (sorted.map Prod.fst).take maxEntities

/-- The TF-IDF extraction of the source (`_extract_by_tfidf`): segment into
pseudo-documents; with fewer than two, fall back to rule-based extraction;
otherwise fit the vectorizer, which fails only on the parameter conflict. -/
def extractByTfidf (text : List Char) (maxEntities : Nat) :
    Except String (List (List Char)) :=
  let sentences := splitTextToSentences text
  if sentences.length < 2 then
    Except.ok (extractByRules text maxEntities)
  else if tfidfParamConflict sentences.length then
    Except.error tfidfConflictMessage
  else
    Except.ok (tfidfRank sentences maxEntities)

/-- The extraction methods of the contract. -/
inductive EMethod where
  | rule
  | statistical
  | hybrid
deriving DecidableEq

/-- The extraction entry point: dispatch on the method.  A TF-IDF exception
is caught and degrades to rule-based extraction, as the source's repaired
error handling does; the hybrid method merges both lists, ranking terms
found by both methods above terms found by one, deduplicates, and truncates,
as the spec describes. -/
def extract (text : List Char) (maxEntities : Nat) (method : EMethod) :
    List (List Char) :=
  match method with
  | EMethod.rule => extractByRules text maxEntities
  | EMethod.statistical =>
    match extractByTfidf text maxEntities with
    | Except.ok l => l
    | Except.error _ => extractByRules text maxEntities
  | EMethod.hybrid =>
    let r := extractByRules text maxEntities
    let s := match extractByTfidf text maxEntities with
      | Except.ok l => l
      | Except.error _ => []
    let both := r.filter (fun t => decide (t ∈ s))
    let onlyR := r.filter (fun t => decide (t ∉ s))
    let onlyS := s.filter (fun t => decide (t ∉ r))
    ((both ++ onlyR ++ onlyS).dedup).take maxEntities

example : splitTextToSentences "hi".toList = ["hi".toList] := by decide

example : (splitTextToSentences []).length = 0 := by decide

example : extract [] 5 EMethod.statistical = [] := by decide

/-- C2: whenever pseudo-document segmentation yields fewer than two
pseudo-documents, the TF-IDF strategy is skipped: it returns exactly the
rule-based result (raising nothing), and so does the statistical entry of
the extraction dispatch. -/
theorem tfidf_short_input_fallback (text : List Char) (m : Nat)
    (h : (splitTextToSentences text).length < 2) :
    extractByTfidf text m = Except.ok (extractByRules text m) ∧
    extract text m EMethod.statistical = extractByRules text m := by
  have h1 : extractByTfidf text m = Except.ok (extractByRules text m) := by
    unfold extractByTfidf
    simp [h]
  exact ⟨h1, by unfold extract; rw [h1]⟩

/-- C2 witness: a two-character input segments into a single pseudo-document,
and extraction falls back to the rule-based result. -/
theorem tfidf_short_input_fallback_witness :
    (splitTextToSentences "hi".toList).length < 2 ∧
    (extractByTfidf "hi".toList 5 = Except.ok (extractByRules "hi".toList 5) ∧
      extract "hi".toList 5 EMethod.statistical = extractByRules "hi".toList 5) :=
  ⟨by decide, tfidf_short_input_fallback "hi".toList 5 (by decide)⟩

/-- C7: the effective maximum-document-frequency count never exceeds the
number of produced pseudo-documents, and the TF-IDF fit's parameter-conflict
failure branch is unreachable: extraction always returns a result. -/
theorem max_df_clamped_no_conflict (text : List Char) (m : Nat) :
    maxDocCount (splitTextToSentences text).length ≤
      (splitTextToSentences text).length ∧
    ∃ l, extractByTfidf text m = Except.ok l := by
  have hmax : ∀ n : Nat, maxDocCount n = n := by
    intro n
    simp [maxDocCount, max_df]
  refine ⟨(hmax _).le, ?_⟩
  unfold extractByTfidf
  by_cases h : (splitTextToSentences text).length < 2
  · exact ⟨extractByRules text m, by simp [h]⟩
  · have hconf : tfidfParamConflict (splitTextToSentences text).length = false := by
      simp only [tfidfParamConflict, hmax, min_df, decide_eq_false_iff_not]
      omega
    exact ⟨tfidfRank (splitTextToSentences text) m, by simp [h, hconf]⟩

/-! ### Document chunking: sentence windows (modelled from the spec) -/

/-- The surrounding window size, the sentence-window node parser's value in
the source notebook. -/
def windowSize : Nat := 3

/-- Modelled from the spec: the chunking step's sentence segmentation of a
document's normalized text (the chunker itself is not in the source tree);
it reuses the sentence split and keeps the non-empty sentences. -/
def docSentences (text : List Char) : List (List Char) :=
  (reSplit text).filter (fun s => decide (s ≠ []))

/-- The N-sentence window surrounding sentence `i`: the sentences from
`i - windowSize` up to `i + windowSize`, clipped to the document. -/
def windowAround (ss : List (List Char)) (i : Nat) : List (List Char) :=
  (ss.drop (i - windowSize)).take (i + windowSize + 1 - (i - windowSize))

/-- A retrievable chunk: a center sentence plus its surrounding window. -/
structure Chunk where
  document_id : Nat
  idx : Nat
  text : List Char
  window_context : List (List Char)
deriving DecidableEq

/-- Placeholder chunk used as a lookup default. -/
def defaultChunk : Chunk := ⟨0, 0, [], []⟩

/-- Modelled from the spec: the windowed chunking of a document — one chunk
per sentence, storing the center sentence and its window as context. -/
def makeChunks (did : Nat) (text : List Char) : List Chunk :=
  let ss := docSentences text
  (List.range ss.length).map (fun i => ⟨did, i, ss.getD i [], windowAround ss i⟩)

/-- The number of chunks a document's text produces. -/
def numChunks (text : List Char) : Nat := (docSentences text).length

/-- C9: each produced chunk stores the corresponding center sentence, its
window context is exactly the N-sentence surrounding window, the center
sentence occurs in its own window, and the window never exceeds
2 N + 1 sentences. -/
theorem chunk_window_structure (did : Nat) (text : List Char) (i : Nat)
    (h : i < (makeChunks did text).length) :
    ((makeChunks did text).getD i defaultChunk).text =
      (docSentences text).getD i [] ∧
    ((makeChunks did text).getD i defaultChunk).window_context =
      windowAround (docSentences text) i ∧
    ((makeChunks did text).getD i defaultChunk).text ∈
      ((makeChunks did text).getD i defaultChunk).window_context ∧
    ((makeChunks did text).getD i defaultChunk).window_context.length ≤
      2 * windowSize + 1 := by
  have hlen : (makeChunks did text).length = (docSentences text).length := by
    simp [makeChunks]
  have hi : i < (docSentences text).length := hlen ▸ h
  have hc : (makeChunks did text).getD i defaultChunk =
      ⟨did, i, (docSentences text).getD i [], windowAround (docSentences text) i⟩ := by
    rw [List.getD_eq_getElem _ _ h]
    simp [makeChunks]
  rw [hc]
  refine ⟨rfl, rfl, ?_, ?_⟩
  · have hlt : i - (i - windowSize) <
        (((docSentences text).drop (i - windowSize)).take
          (i + windowSize + 1 - (i - windowSize))).length := by
      simp only [List.length_take, List.length_drop]
      omega
    have hidx : (i - windowSize) + (i - (i - windowSize)) = i := by omega
    have hval : (((docSentences text).drop (i - windowSize)).take
        (i + windowSize + 1 - (i - windowSize)))[i - (i - windowSize)] =
        (docSentences text).getD i [] := by
      rw [List.getElem_take, List.getElem_drop, List.getD_eq_getElem _ _ hi]
      congr 1
    have hmem := List.getElem_mem hlt
    rw [hval] at hmem
    simpa [windowAround] using hmem
  · simp only [windowAround, List.length_take, List.length_drop]
    omega

/-- C9 witness: the first chunk of a concrete three-sentence document. -/
theorem chunk_window_structure_witness :
    0 < (makeChunks 0 "ab. cd. ef.".toList).length ∧
    ((makeChunks 0 "ab. cd. ef.".toList).getD 0 defaultChunk).text ∈
      ((makeChunks 0 "ab. cd. ef.".toList).getD 0 defaultChunk).window_context :=
  ⟨by decide, (chunk_window_structure 0 "ab. cd. ef.".toList 0 (by decide)).2.2.1⟩

/-- C8: on the empty input, extraction returns the empty list under every
method, raising nothing. -/
theorem extract_empty_returns_nil (m : Nat) (method : EMethod) :
    extract [] m method = [] := by
  have hrules : extractByRules [] m = [] := by
    simp [extractByRules, tokenize, runsAux]
  have htf : extractByTfidf [] m = Except.ok (extractByRules [] m) := by
    unfold extractByTfidf
    norm_num [show splitTextToSentences [] = [] from by decide]
  cases method with
  | rule => simpa [extract] using hrules
  | statistical =>
    unfold extract
    rw [htf, hrules]
  | hybrid =>
    unfold extract
    rw [htf, hrules]
    simp

/-! ### MetadataStore, IndexManager state, DocumentProcessor pipeline
and SyncManager (modelled from the spec) -/

/-- Document processing status. -/
inductive Status where
  | pending
  | processed
  | failed
deriving DecidableEq

/-- A document's metadata record: owning business, normalized source text,
status, and the recorded chunk count. -/
structure DocRec where
  business : Nat
  text : List Char
  status : Status
  chunk_count : Nat
deriving DecidableEq

/-- A vector key in the external engine: the collection it lives in (one per
business), the owning document, and the chunk position.  Upserting the same
key overwrites, so the engine's population is a set of keys. -/
structure VKey where
  business : Nat
  doc : Nat
  idx : Nat
deriving DecidableEq

/-- The joint state: the metadata store's document records and the vector
engine's population. -/
structure Sys where
  docs : List (Nat × DocRec)
  index : Finset VKey

/-- Association-list lookup of a document record. -/
def getDoc : List (Nat × DocRec) → Nat → Option DocRec
  | [], _ => none
  | p :: rest, did => if p.1 = did then some p.2 else getDoc rest did

/-- Association-list update of a document record. -/
def setDoc (l : List (Nat × DocRec)) (did : Nat) (d : DocRec) :
    List (Nat × DocRec) :=
  l.map (fun p => if p.1 = did then (did, d) else p)

/-- The full key set of a document's chunks in its business collection. -/
def keySet (b did n : Nat) : Finset VKey :=
  (Finset.range n).image (fun i => ⟨b, did, i⟩)

/-- The number of vectors actually indexed for a document. -/
def vectorsFor (s : Sys) (did : Nat) : Nat :=
  (s.index.filter (fun k => k.doc = did)).card

/-- Submitting a file creates a pending document record. -/
def submitOp (s : Sys) (did b : Nat) (text : List Char) : Sys :=
  { docs := (did, ⟨b, text, Status.pending, 0⟩) :: s.docs, index := s.index }

/-- The outcome of one run of the processing pipeline: success, or failure
at a given step (1 conversion, 2 chunking, 3 embedding, 4 vector upsert,
5 extraction, 6 metadata write), with the number of chunks already upserted
when step 4 itself fails partway. -/
inductive POutcome where
  | success
  | failAt (step : Nat) (part : Nat)

/-- Modelled from the spec: one run of DocumentProcessor's pipeline.  On
success all chunks are upserted and the metadata write records status
`processed` together with the chunk count.  On failure the document is
marked `failed`; partial index writes are kept, not rolled back — steps
before the upsert write nothing, a failing upsert wrote a prefix of the
chunks, and later failing steps leave the full upsert in place. -/
def applyProcess (s : Sys) (did : Nat) (o : POutcome) : Sys :=
  match getDoc s.docs did with
  | none => s
  | some d =>
    let n := numChunks d.text
    match o with
    | POutcome.success =>
      { docs := setDoc s.docs did
          { d with status := Status.processed, chunk_count := n },
        index := s.index ∪ keySet d.business did n }
    | POutcome.failAt step part =>
      let written := if step ≤ 3 then 0 else if step = 4 then min part n else n
      { docs := setDoc s.docs did { d with status := Status.failed },
        index := s.index ∪ keySet d.business did written }

/-- Whether the metadata store records the document as processed. -/
def isProcessedB (s : Sys) (did : Nat) : Bool :=
  match getDoc s.docs did with
  | some d => decide (d.status = Status.processed)
  | none => false

/-- The orphaned vectors of a business's collection: keys whose document is
not recorded as processed. -/
def orphanSet (s : Sys) (b : Nat) : Finset VKey :=
  s.index.filter (fun k => k.business = b ∧ isProcessedB s k.doc = false)

/-- The drifted processed documents of a business: recorded as processed but
with a vector count differing from the recorded chunk count. -/
def driftedDocs (s : Sys) (b : Nat) : List (Nat × DocRec) :=
  s.docs.filter (fun p =>
    decide (p.2.business = b ∧ p.2.status = Status.processed ∧
      ¬ vectorsFor s p.1 = p.2.chunk_count))

/-- The report of one reconciliation run. -/
structure ReconcileResult where
  repaired : List Nat
  orphaned_removed : List Nat
deriving DecidableEq

/-- Modelled from the spec: SyncManager's reconciliation of one business —
remove the orphaned vectors, and repair each drifted processed document by
re-running the chunking and upsert steps, reporting both document lists. -/
def reconcile (s : Sys) (b : Nat) : Sys × ReconcileResult :=
  let orphans := orphanSet s b
  let drifted := driftedDocs s b
  let idx1 := s.index \ orphans
  let idx2 := drifted.foldl
    (fun acc p => acc ∪ keySet p.2.business p.1 (numChunks p.2.text)) idx1
  (⟨s.docs, idx2⟩,
   ⟨drifted.map Prod.fst, (orphans.image VKey.doc).sort (fun a b => a ≤ b)⟩)

/-- The states reachable through submissions, pipeline runs (successful or
failing anywhere), and reconciliations, from the empty initial state. -/
inductive Reach : Sys → Prop where
  | init : Reach ⟨[], ∅⟩
  | submit {s : Sys} (did b : Nat) (text : List Char) :
      Reach s → getDoc s.docs did = none → Reach (submitOp s did b text)
  | proc {s : Sys} (did : Nat) (o : POutcome) :
      Reach s → Reach (applyProcess s did o)
  | sync {s : Sys} (b : Nat) : Reach s → Reach (reconcile s b).1

/-! ### Association-list and key-set lemmas -/

theorem setDoc_cons (p : Nat × DocRec) (rest : List (Nat × DocRec))
    (did : Nat) (d : DocRec) :
    setDoc (p :: rest) did d =
      (if p.1 = did then (did, d) else p) :: setDoc rest did d := rfl

theorem getDoc_cons (p : Nat × DocRec) (rest : List (Nat × DocRec)) (x : Nat) :
    getDoc (p :: rest) x = if p.1 = x then some p.2 else getDoc rest x := rfl

theorem getDoc_setDoc_self (l : List (Nat × DocRec)) (did : Nat) (d0 d : DocRec)
    (h : getDoc l did = some d0) :
    getDoc (setDoc l did d) did = some d := by
  induction l with
  | nil => simp [getDoc] at h
  | cons p rest ih =>
    rw [setDoc_cons, getDoc_cons]
    by_cases hp : p.1 = did
    · simp [hp]
    · rw [getDoc_cons, if_neg hp] at h
      simp only [if_neg hp, hp, if_false]
      exact ih h

theorem getDoc_setDoc_ne (l : List (Nat × DocRec)) (did : Nat) (d : DocRec)
    (x : Nat) (h : x ≠ did) :
    getDoc (setDoc l did d) x = getDoc l x := by
  induction l with
  | nil => rfl
  | cons p rest ih =>
    rw [setDoc_cons, getDoc_cons, getDoc_cons]
    by_cases hp : p.1 = did
    · rw [if_pos hp]
      have h1 : ¬ ((did, d).1 = x) := fun he => h he.symm
      have h2 : ¬ (p.1 = x) := by
        rw [hp]
        exact fun he => h he.symm
      rw [if_neg h1, if_neg h2]
      exact ih
    · simp only [if_neg hp]
      by_cases hpx : p.1 = x
      · simp [hpx]
      · simp only [if_neg hpx]
        exact ih

theorem keys_setDoc (l : List (Nat × DocRec)) (did : Nat) (d : DocRec) :
    (setDoc l did d).map Prod.fst = l.map Prod.fst := by
  induction l with
  | nil => rfl
  | cons p rest ih =>
    rw [setDoc_cons, List.map_cons, List.map_cons, ih]
    by_cases hp : p.1 = did
    · simp [hp]
    · simp [hp]

theorem mem_getDoc (l : List (Nat × DocRec)) (did : Nat) (d : DocRec)
    (hnodup : (l.map Prod.fst).Nodup) (h : (did, d) ∈ l) :
    getDoc l did = some d := by
  induction l with
  | nil => cases h
  | cons p rest ih =>
    have hnd := List.nodup_cons.mp (by rw [List.map_cons] at hnodup; exact hnodup)
    rcases List.mem_cons.mp h with he | hm
    · rw [getDoc_cons, ← he]
      simp
    · have hd : did ∈ rest.map Prod.fst :=
        List.mem_map.mpr ⟨(did, d), hm, rfl⟩
      have hp : p.1 ≠ did := fun he => hnd.1 (he ▸ hd)
      rw [getDoc_cons, if_neg hp]
      exact ih hnd.2 hm

theorem getDoc_none_not_mem (l : List (Nat × DocRec)) (x : Nat)
    (h : getDoc l x = none) : x ∉ l.map Prod.fst := by
  induction l with
  | nil => simp
  | cons p rest ih =>
    rw [getDoc_cons] at h
    by_cases hp : p.1 = x
    · simp [hp] at h
    · rw [if_neg hp] at h
      rw [List.map_cons]
      exact fun hmem => (List.mem_cons.mp hmem).elim
        (fun he => hp he.symm) (ih h)

theorem mem_keySet {k : VKey} {b did n : Nat} :
    k ∈ keySet b did n ↔ k.business = b ∧ k.doc = did ∧ k.idx < n := by
  unfold keySet
  simp only [Finset.mem_image, Finset.mem_range]
  constructor
  · rintro ⟨i, hi, rfl⟩
    exact ⟨rfl, rfl, hi⟩
  · rintro ⟨h1, h2, h3⟩
    exact ⟨k.idx, h3, by cases k; simp_all⟩

theorem card_keySet (b did n : Nat) : (keySet b did n).card = n := by
  unfold keySet
  rw [Finset.card_image_of_injective _ (fun i j h => by simpa using h)]
  exact Finset.card_range n

/-! ### The reconciliation invariant -/

/-- The consistency invariant tying the metadata store to the vector engine:
document ids are unique; every indexed vector belongs to a recorded document,
lives in that document's business collection, and its chunk position is in
range; and every processed document records the true chunk count and has all
of its chunks indexed. -/
structure SysInv (s : Sys) : Prop where
  nodupKeys : (s.docs.map Prod.fst).Nodup
  keyDoc : ∀ k ∈ s.index, ∃ d, getDoc s.docs k.doc = some d ∧
    k.business = d.business ∧ k.idx < numChunks d.text
  procFull : ∀ did d, getDoc s.docs did = some d →
    d.status = Status.processed →
    d.chunk_count = numChunks d.text ∧
    ∀ i, i < numChunks d.text → (⟨d.business, did, i⟩ : VKey) ∈ s.index

theorem filter_doc_eq_keySet {s : Sys} (hinv : SysInv s) {did : Nat} {d : DocRec}
    (hd : getDoc s.docs did = some d)
    (hall : ∀ i, i < numChunks d.text →
      (⟨d.business, did, i⟩ : VKey) ∈ s.index) :
    s.index.filter (fun k => k.doc = did) =
      keySet d.business did (numChunks d.text) := by
  ext k
  simp only [Finset.mem_filter, mem_keySet]
  constructor
  · rintro ⟨hk, hkd⟩
    obtain ⟨d', hd', hb, hlt⟩ := hinv.keyDoc k hk
    rw [hkd, hd] at hd'
    injection hd' with hd'
    subst hd'
    exact ⟨hb, hkd, hlt⟩
  · rintro ⟨hb, hdoc, hlt⟩
    refine ⟨?_, hdoc⟩
    have hm := hall k.idx hlt
    have hk : k = ⟨d.business, did, k.idx⟩ := by
      cases k
      simp_all
    rw [hk]
    exact hm

theorem vectorsFor_eq {s : Sys} (hinv : SysInv s) {did : Nat} {d : DocRec}
    (hd : getDoc s.docs did = some d)
    (hall : ∀ i, i < numChunks d.text →
      (⟨d.business, did, i⟩ : VKey) ∈ s.index) :
    vectorsFor s did = numChunks d.text := by
  unfold vectorsFor
  rw [filter_doc_eq_keySet hinv hd hall, card_keySet]

theorem inv_count {s : Sys} (hinv : SysInv s) {did : Nat} {d : DocRec}
    (hd : getDoc s.docs did = some d) (hp : d.status = Status.processed) :
    vectorsFor s did = numChunks d.text :=
  vectorsFor_eq hinv hd (hinv.procFull did d hd hp).2

theorem inv_init : SysInv ⟨[], ∅⟩ where
  nodupKeys := by simp
  keyDoc := by
    intro k hk
    simp at hk
  procFull := by
    intro did d h
    simp [getDoc] at h

theorem inv_submit {s : Sys} (hinv : SysInv s) (did b : Nat) (text : List Char)
    (hfresh : getDoc s.docs did = none) :
    SysInv (submitOp s did b text) where
  nodupKeys := by
    unfold submitOp
    rw [List.map_cons, List.nodup_cons]
    exact ⟨getDoc_none_not_mem s.docs did hfresh, hinv.nodupKeys⟩
  keyDoc := by
    intro k hk
    obtain ⟨d', hd', hb, hlt⟩ := hinv.keyDoc k hk
    have hne : ¬ (did = k.doc) := by
      intro he
      rw [← he, hfresh] at hd'
      cases hd'
    refine ⟨d', ?_, hb, hlt⟩
    unfold submitOp
    rw [getDoc_cons, if_neg hne]
    exact hd'
  procFull := by
    intro did2 d hg hst
    unfold submitOp at hg
    rw [getDoc_cons] at hg
    by_cases he : did = did2
    · rw [if_pos he] at hg
      injection hg with hg
      rw [← hg] at hst
      cases hst
    · rw [if_neg he] at hg
      exact hinv.procFull did2 d hg hst

theorem inv_proc_core {s : Sys} (hinv : SysInv s) {did : Nat} {d : DocRec}
    (hgd : getDoc s.docs did = some d) (d' : DocRec)
    (hb : d'.business = d.business) (ht : d'.text = d.text) (w : Nat)
    (hw : w ≤ numChunks d.text)
    (hcc : d'.status = Status.processed →
      d'.chunk_count = numChunks d.text ∧ numChunks d.text ≤ w) :
    SysInv ⟨setDoc s.docs did d', s.index ∪ keySet d.business did w⟩ where
  nodupKeys := by
    rw [keys_setDoc]
    exact hinv.nodupKeys
  keyDoc := by
    intro k hk
    rcases Finset.mem_union.mp hk with hk1 | hk2
    · obtain ⟨d1, hd1, hb1, hl1⟩ := hinv.keyDoc k hk1
      by_cases he : k.doc = did
      · rw [he, hgd] at hd1
        injection hd1 with hd1
        refine ⟨d', ?_, ?_, ?_⟩
        · rw [he]
          exact getDoc_setDoc_self s.docs did d d' hgd
        · rw [hb1, ← hd1]
          exact hb.symm
        · rw [ht]
          rw [← hd1] at hl1
          exact hl1
      · exact ⟨d1, by rw [getDoc_setDoc_ne s.docs did d' k.doc he]; exact hd1,
          hb1, hl1⟩
    · obtain ⟨hkb, hkd, hki⟩ := mem_keySet.mp hk2
      refine ⟨d', ?_, by rw [hkb, hb], ?_⟩
      · rw [hkd]
        exact getDoc_setDoc_self s.docs did d d' hgd
      · rw [ht]
        exact lt_of_lt_of_le hki hw
  procFull := by
    intro did2 d2 hg2 hs2
    by_cases he : did2 = did
    · rw [he, getDoc_setDoc_self s.docs did d d' hgd] at hg2
      injection hg2 with hg2
      rw [← hg2] at hs2 ⊢
      obtain ⟨hc1, hc2⟩ := hcc hs2
      refine ⟨by rw [hc1, ht], ?_⟩
      intro i hi
      rw [ht] at hi
      apply Finset.mem_union_right
      rw [mem_keySet]
      exact ⟨by rw [hb], by rw [he], lt_of_lt_of_le hi hc2⟩
    · rw [getDoc_setDoc_ne s.docs did d' did2 he] at hg2
      obtain ⟨hc1, hfull⟩ := hinv.procFull did2 d2 hg2 hs2
      exact ⟨hc1, fun i hi => Finset.mem_union_left _ (hfull i hi)⟩

theorem inv_proc {s : Sys} (hinv : SysInv s) (did : Nat) (o : POutcome) :
    SysInv (applyProcess s did o) := by
  unfold applyProcess
  cases hgd : getDoc s.docs did with
  | none => exact hinv
  | some d =>
    cases o with
    | success =>
      exact inv_proc_core hinv hgd
        { d with status := Status.processed, chunk_count := numChunks d.text }
        rfl rfl (numChunks d.text) le_rfl (fun _ => ⟨rfl, le_rfl⟩)
    | failAt step part =>
      refine inv_proc_core hinv hgd { d with status := Status.failed } rfl rfl
        (if step ≤ 3 then 0 else if step = 4 then min part (numChunks d.text)
          else numChunks d.text) ?_ (fun hcon => by cases hcon)
      by_cases h3 : step ≤ 3
      · simp [h3]
      · by_cases h4 : step = 4
        · simp [h3, h4]
        · simp [h3, h4]

theorem drifted_nil {s : Sys} (hinv : SysInv s) (b : Nat) :
    driftedDocs s b = [] := by
  unfold driftedDocs
  rw [List.filter_eq_nil_iff]
  intro p hp
  simp only [decide_eq_true_eq, not_and, not_not]
  intro hb hst
  have hg : getDoc s.docs p.1 = some p.2 :=
    mem_getDoc s.docs p.1 p.2 hinv.nodupKeys (by simpa using hp)
  rw [inv_count hinv hg hst]
  exact ((hinv.procFull p.1 p.2 hg hst).1).symm

theorem reconcile_eq {s : Sys} (hinv : SysInv s) (b : Nat) :
    reconcile s b = (⟨s.docs, s.index \ orphanSet s b⟩,
      ⟨[], ((orphanSet s b).image VKey.doc).sort (fun a b => a ≤ b)⟩) := by
  unfold reconcile
  rw [drifted_nil hinv b]
  rfl

theorem inv_sdiff {s : Sys} (hinv : SysInv s) (b : Nat) :
    SysInv ⟨s.docs, s.index \ orphanSet s b⟩ where
  nodupKeys := hinv.nodupKeys
  keyDoc := by
    intro k hk
    exact hinv.keyDoc k (Finset.mem_sdiff.mp hk).1
  procFull := by
    intro did d hg hst
    obtain ⟨hc1, hfull⟩ := hinv.procFull did d hg hst
    refine ⟨hc1, fun i hi => ?_⟩
    rw [Finset.mem_sdiff]
    refine ⟨hfull i hi, ?_⟩
    unfold orphanSet
    rw [Finset.mem_filter]
    rintro ⟨-, -, hnp⟩
    unfold isProcessedB at hnp
    rw [hg] at hnp
    simp [hst] at hnp

theorem reconcile_orphaned (s : Sys) (b : Nat) :
    (reconcile s b).2.orphaned_removed =
      ((orphanSet s b).image VKey.doc).sort (fun a b => a ≤ b) := rfl

theorem inv_reconcile {s : Sys} (hinv : SysInv s) (b : Nat) :
    SysInv (reconcile s b).1 := by
  rw [reconcile_eq hinv b]
  exact inv_sdiff hinv b

theorem reach_inv {s : Sys} (h : Reach s) : SysInv s := by
  induction h with
  | init => exact inv_init
  | submit did b text _ hfresh ih => exact inv_submit ih did b text hfresh
  | proc did o _ ih => exact inv_proc ih did o
  | sync b _ ih => exact inv_reconcile ih b

/-- C1: in every reachable state, a document whose status is processed has
its recorded chunk count equal to the number of vectors actually indexed
for it — the pipeline sets processed only when both the upsert and metadata
write landed, so the reconciliation invariant holds in every state. -/
theorem processed_chunk_count_invariant {s : Sys} (hR : Reach s) {did : Nat}
    {d : DocRec} (hd : getDoc s.docs did = some d)
    (hp : d.status = Status.processed) :
    d.chunk_count = vectorsFor s did := by
  have hinv := reach_inv hR
  rw [(hinv.procFull did d hd hp).1, inv_count hinv hd hp]

/-- Concrete three-sentence text used by the reachable-state witnesses. -/
def wText : List Char := "ab. cd. ef.".toList

/-- A reachable state with one successfully processed document. -/
def sysProcessed : Sys :=
  applyProcess (submitOp ⟨[], ∅⟩ 0 7 wText) 0 POutcome.success

example : numChunks wText = 3 := by decide

/-- C1 witness: the concrete processed document records chunk count 3,
matching its three indexed vectors. -/
theorem processed_chunk_count_invariant_witness :
    Reach sysProcessed ∧
    (⟨7, wText, Status.processed, 3⟩ : DocRec).chunk_count =
      vectorsFor sysProcessed 0 :=
  ⟨Reach.proc 0 POutcome.success (Reach.submit 0 7 wText Reach.init (by decide)),
   processed_chunk_count_invariant
     (Reach.proc 0 POutcome.success
       (Reach.submit 0 7 wText Reach.init (by decide)))
     (show getDoc sysProcessed.docs 0 =
       some ⟨7, wText, Status.processed, 3⟩ by decide)
     (by decide)⟩

/-- C4: reconciliation is idempotent — starting from any reachable state,
running it a second time with no ingestion in between reports nothing
repaired and no orphans removed. -/
theorem reconcile_idempotent {s : Sys} (b : Nat) (hR : Reach s) :
    (reconcile (reconcile s b).1 b).2 = ⟨[], []⟩ := by
  have hinv := reach_inv hR
  have hfst : (reconcile s b).1 = ⟨s.docs, s.index \ orphanSet s b⟩ := by
    rw [reconcile_eq hinv b]
  have hinv1 : SysInv (⟨s.docs, s.index \ orphanSet s b⟩ : Sys) :=
    inv_sdiff hinv b
  have horph : orphanSet (⟨s.docs, s.index \ orphanSet s b⟩ : Sys) b = ∅ := by
    ext k
    simp only [Finset.not_mem_empty, iff_false]
    intro hmem
    obtain ⟨hk1, hb2, hnp⟩ := Finset.mem_filter.mp hmem
    obtain ⟨hk, hno⟩ := Finset.mem_sdiff.mp hk1
    exact hno (Finset.mem_filter.mpr ⟨hk, hb2, hnp⟩)
  rw [hfst, reconcile_eq hinv1 b]
  simp only [horph, Finset.image_empty, Finset.sort_empty]

/-- A reachable state where a run failed at the metadata write, leaving
orphaned vectors behind. -/
def sysFailed : Sys :=
  applyProcess (submitOp ⟨[], ∅⟩ 0 5 wText) 0 (POutcome.failAt 6 0)

/-- Reachability of the failed-run state. -/
theorem sysFailed_reach : Reach sysFailed :=
  Reach.proc 0 (POutcome.failAt 6 0)
    (Reach.submit 0 5 wText Reach.init (by decide))

/-- C4 witness: on the concrete drifted state the second reconciliation
reports empty lists. -/
theorem reconcile_idempotent_witness :
    Reach sysFailed ∧ (reconcile (reconcile sysFailed 5).1 5).2 = ⟨[], []⟩ :=
  ⟨sysFailed_reach, reconcile_idempotent 5 sysFailed_reach⟩

/-- C6: when the vector upsert succeeded but the metadata write failed, the
document is marked failed while its vectors stay in the index (the failed
run is not rolled back); the next reconciliation reports the document among
the removed orphans, deletes every one of its vectors, and the document
remains failed — it never becomes processed. -/
theorem orphan_cleanup_after_metadata_failure {s : Sys} (hR : Reach s)
    {did b : Nat} {d : DocRec} (hd : getDoc s.docs did = some d)
    (hb : d.business = b) (hn : 0 < numChunks d.text) :
    getDoc (applyProcess s did (POutcome.failAt 6 0)).docs did =
      some { d with status := Status.failed } ∧
    vectorsFor (applyProcess s did (POutcome.failAt 6 0)) did =
      numChunks d.text ∧
    did ∈ (reconcile (applyProcess s did (POutcome.failAt 6 0)) b).2.orphaned_removed ∧
    vectorsFor (reconcile (applyProcess s did (POutcome.failAt 6 0)) b).1 did = 0 ∧
    getDoc (reconcile (applyProcess s did (POutcome.failAt 6 0)) b).1.docs did =
      some { d with status := Status.failed } := by
  have hinv := reach_inv hR
  have hinv1 : SysInv (applyProcess s did (POutcome.failAt 6 0)) :=
    inv_proc hinv did (POutcome.failAt 6 0)
  have hs1 : applyProcess s did (POutcome.failAt 6 0) =
      ⟨setDoc s.docs did { d with status := Status.failed },
        s.index ∪ keySet d.business did (numChunks d.text)⟩ := by
    unfold applyProcess
    rw [hd]
    rfl
  rw [hs1] at hinv1 ⊢
  have hgd1 : getDoc (setDoc s.docs did { d with status := Status.failed }) did =
      some { d with status := Status.failed } :=
    getDoc_setDoc_self s.docs did d _ hd
  have hnotproc : isProcessedB
      (⟨setDoc s.docs did { d with status := Status.failed },
        s.index ∪ keySet d.business did (numChunks d.text)⟩ : Sys) did = false := by
    unfold isProcessedB
    rw [hgd1]
    rfl
  have hall1 : ∀ i, i < numChunks d.text →
      (⟨d.business, did, i⟩ : VKey) ∈
        s.index ∪ keySet d.business did (numChunks d.text) := by
    intro i hi
    exact Finset.mem_union_right _ (mem_keySet.mpr ⟨rfl, rfl, hi⟩)
  have h2 : vectorsFor
      (⟨setDoc s.docs did { d with status := Status.failed },
        s.index ∪ keySet d.business did (numChunks d.text)⟩ : Sys) did =
      numChunks d.text :=
    @vectorsFor_eq
      (⟨setDoc s.docs did { d with status := Status.failed },
        s.index ∪ keySet d.business did (numChunks d.text)⟩ : Sys)
      hinv1 did { d with status := Status.failed } hgd1 hall1
  have horphmem : (⟨d.business, did, 0⟩ : VKey) ∈
      orphanSet (⟨setDoc s.docs did { d with status := Status.failed },
        s.index ∪ keySet d.business did (numChunks d.text)⟩ : Sys) b := by
    unfold orphanSet
    exact Finset.mem_filter.mpr ⟨hall1 0 hn, hb, hnotproc⟩
  refine ⟨hgd1, h2, ?_, ?_, ?_⟩
  · rw [reconcile_orphaned, Finset.mem_sort]
    exact Finset.mem_image_of_mem VKey.doc horphmem
  · rw [reconcile_eq hinv1 b]
    unfold vectorsFor
    rw [Finset.card_eq_zero]
    ext k
    simp only [Finset.mem_filter, Finset.mem_sdiff, Finset.not_mem_empty,
      iff_false, not_and]
    intro hk1 hkd
    obtain ⟨hk, hno⟩ := hk1
    exfalso
    obtain ⟨d2, hd2, hb2, hl2⟩ := hinv1.keyDoc k hk
    rw [hkd, hgd1] at hd2
    injection hd2 with hd2
    apply hno
    unfold orphanSet
    refine Finset.mem_filter.mpr ⟨hk, ?_, ?_⟩
    · rw [hb2, ← hd2]
      exact hb
    · rw [hkd]
      exact hnotproc
  · rw [reconcile_eq hinv1 b]
    exact hgd1

/-- C6 witness: the concrete failed-run state — document 0 of business 5 is
failed and listed among the removed orphans of the next reconciliation. -/
theorem orphan_cleanup_after_metadata_failure_witness :
    Reach (submitOp ⟨[], ∅⟩ 0 5 wText) ∧
    0 ∈ (reconcile (applyProcess (submitOp ⟨[], ∅⟩ 0 5 wText) 0
      (POutcome.failAt 6 0)) 5).2.orphaned_removed :=
  ⟨Reach.submit 0 5 wText Reach.init (by decide),
   (orphan_cleanup_after_metadata_failure
     (Reach.submit 0 5 wText Reach.init (by decide))
     (show getDoc (submitOp ⟨[], ∅⟩ 0 5 wText).docs 0 =
       some ⟨5, wText, Status.pending, 0⟩ by decide)
     (by decide) (by decide)).2.2.1⟩

/-! ### HybridSearchEngine (modelled from the spec; fusion constant from
the source notebook's reciprocal-rank-fusion ranker) -/

/-- The reciprocal-rank-fusion constant, 60 in the source notebook's
hybrid ranker parameters. -/
def rrfK : Nat := 60

/-- A retrieval candidate: a chunk with its originating business and its
parent document's entity terms. -/
structure Candidate where
  chunk_id : Nat
  business : Nat
  entities : List (List Char)
deriving DecidableEq

/-- A fused search result, tagged with the originating business and the
original vector-similarity rank. -/
structure SearchResult where
  chunk_id : Nat
  business : Nat
  vecRank : Nat
  score : ℚ
deriving DecidableEq

/-- Reciprocal-rank fusion of a vector rank and a lexical rank. -/
def rrfScore (rv rl : Nat) : ℚ :=
  1 / ((rrfK : ℚ) + rv) + 1 / ((rrfK : ℚ) + rl)

/-- Modelled from the spec: the lexical/entity-overlap score of a candidate
against the query's extracted entities. -/
def lexScore (qe : List (List Char)) (c : Candidate) : Nat :=
  (qe.filter (fun t => decide (t ∈ c.entities))).length

/-- The lexical ranking order over vector-enumerated candidates: higher
overlap first, ties by the vector rank. -/
def lexOrder (qe : List (List Char)) (a b : Nat × Candidate) : Prop :=
  lexScore qe b.2 < lexScore qe a.2 ∨
    (lexScore qe a.2 = lexScore qe b.2 ∧ a.1 ≤ b.1)

instance (qe : List (List Char)) : DecidableRel (lexOrder qe) := fun a b => by
  unfold lexOrder
  infer_instance

/-- Modelled from the spec: fuse one candidate list — each candidate keeps
its vector rank (its position in the similarity-ranked list), obtains a
lexical rank from sorting by overlap score, and is scored by
reciprocal-rank fusion of the two ranks. -/
def fuse (qe : List (List Char)) (cands : List Candidate) :
    List SearchResult :=
  let e := cands.enum
  let lexSorted := List.insertionSort (lexOrder qe) e
  e.map (fun p =>
    ⟨p.2.chunk_id, p.2.business, p.1, rrfScore p.1 (lexSorted.indexOf p)⟩)

/-- The global ranking order: non-increasing fused score, ties broken by
the original vector-similarity rank. -/
def resBefore (a b : SearchResult) : Prop :=
  b.score < a.score ∨ (b.score = a.score ∧ a.vecRank ≤ b.vecRank)

instance : DecidableRel resBefore := fun a b => by
  unfold resBefore
  infer_instance

instance : IsTotal SearchResult resBefore where
  total := by
    intro a b
    unfold resBefore
    rcases lt_trichotomy a.score b.score with h | h | h
    · exact Or.inr (Or.inl h)
    · by_cases hv : a.vecRank ≤ b.vecRank
      · exact Or.inl (Or.inr ⟨h.symm, hv⟩)
      · exact Or.inr (Or.inr ⟨h, le_of_not_le hv⟩)
    · exact Or.inl (Or.inl h)

instance : IsTrans SearchResult resBefore where
  trans := by
    intro a b c hab hbc
    unfold resBefore at hab hbc ⊢
    rcases hab with h1 | ⟨h1, h2⟩ <;> rcases hbc with h3 | ⟨h3, h4⟩
    · exact Or.inl (lt_trans h3 h1)
    · exact Or.inl (h3 ▸ h1)
    · exact Or.inl (lt_of_lt_of_le h3 (le_of_eq h1))
    · exact Or.inr ⟨h3.trans h1, le_trans h2 h4⟩

/-- Modelled from the spec: the hybrid search — fuse the target business's
candidates, optionally fuse up to `maxRelated` neighbor businesses'
candidate lists too, merge everything into one global ranking, and truncate
to `topK`. -/
def search (qe : List (List Char)) (cands : List Candidate)
    (related : List (List Candidate)) (topK : Nat) (expand : Bool)
    (maxRelated : Nat) : List SearchResult :=
  let pool := fuse qe cands ++
    (if expand then ((related.take maxRelated).map (fuse qe)).flatten else [])
  (List.insertionSort resBefore pool).take topK

theorem mem_fuse_score {qe : List (List Char)} {cands : List Candidate}
    {r : SearchResult} (h : r ∈ fuse qe cands) :
    ∃ rv rl, r.score = rrfScore rv rl := by
  unfold fuse at h
  obtain ⟨p, -, hp⟩ := List.mem_map.mp h
  exact ⟨p.1, _, by rw [← hp]⟩

theorem rrfScore_pos (rv rl : Nat) : 0 < rrfScore rv rl := by
  have h0 : (0 : ℚ) < (rrfK : ℚ) := by norm_num [rrfK]
  have hv : (0 : ℚ) ≤ (rv : ℚ) := Nat.cast_nonneg rv
  have hl : (0 : ℚ) ≤ (rl : ℚ) := Nat.cast_nonneg rl
  have h1 : (0 : ℚ) < (rrfK : ℚ) + rv := by linarith
  have h2 : (0 : ℚ) < (rrfK : ℚ) + rl := by linarith
  have g1 := div_pos one_pos h1
  have g2 := div_pos one_pos h2
  unfold rrfScore
  linarith

/-- C3: the hybrid search returns at most `topK` results; every result's
fused score is a reciprocal-rank-fusion value, hence finite and positive;
and the returned list is ordered by non-increasing fused score with ties
broken by the original vector-similarity rank. -/
theorem hybrid_search_topk_sorted (qe : List (List Char))
    (cands : List Candidate) (related : List (List Candidate)) (topK : Nat)
    (expand : Bool) (maxRelated : Nat) :
    (search qe cands related topK expand maxRelated).length ≤ topK ∧
    (∀ r ∈ search qe cands related topK expand maxRelated,
      (∃ rv rl, r.score = rrfScore rv rl) ∧ 0 < r.score) ∧
    List.Pairwise (fun a b => b.score ≤ a.score ∧
      (b.score = a.score → a.vecRank ≤ b.vecRank))
      (search qe cands related topK expand maxRelated) := by
  refine ⟨List.length_take_le _ _, ?_, ?_⟩
  · intro r hr
    have hr2 : r ∈ fuse qe cands ++
        (if expand then ((related.take maxRelated).map (fuse qe)).flatten
          else []) :=
      (List.mem_insertionSort resBefore).mp (List.mem_of_mem_take hr)
    have hscore : ∃ rv rl, r.score = rrfScore rv rl := by
      rcases List.mem_append.mp hr2 with h | h
      · exact mem_fuse_score h
      · cases expand with
        | false => simp at h
        | true =>
          rw [if_pos rfl] at h
          obtain ⟨l', hl', hrl⟩ := List.mem_flatten.mp h
          obtain ⟨cs, -, hcs⟩ := List.mem_map.mp hl'
          exact mem_fuse_score (hcs ▸ hrl)
    refine ⟨hscore, ?_⟩
    obtain ⟨rv, rl, he⟩ := hscore
    rw [he]
    exact rrfScore_pos rv rl
  · refine List.Pairwise.sublist (List.take_sublist _ _) ?_
    refine List.Pairwise.imp ?_
      (List.sorted_insertionSort resBefore _)
    intro a b hab
    rcases hab with h | ⟨h1, h2⟩
    · exact ⟨h.le, fun he => absurd he h.ne⟩
    · exact ⟨le_of_eq h1, fun _ => h2⟩

/-- C3 witness: a concrete two-candidate search returns at most two results
with positive fused scores. -/
theorem hybrid_search_topk_sorted_witness :
    (search [] [⟨1, 0, []⟩, ⟨2, 0, []⟩] [] 2 false 2).length ≤ 2 ∧
    ∀ r ∈ search [] [⟨1, 0, []⟩, ⟨2, 0, []⟩] [] 2 false 2, 0 < r.score :=
  ⟨(hybrid_search_topk_sorted [] [⟨1, 0, []⟩, ⟨2, 0, []⟩] [] 2 false 2).1,
   fun r hr =>
     ((hybrid_search_topk_sorted [] [⟨1, 0, []⟩, ⟨2, 0, []⟩] [] 2 false 2).2.1
       r hr).2⟩

/-! ### RelationManager (modelled from the spec) -/

/-- Association-list lookup of a business's entity set. -/
def alookup : List (Nat × List (List Char)) → Nat → Option (List (List Char))
  | [], _ => none
  | p :: rest, bid => if p.1 = bid then some p.2 else alookup rest bid

/-- Modelled from the spec: the rarity weight of a term — the reciprocal of
one plus the number of businesses whose entity set contains it, so a term
shared by every business contributes little and a rare term contributes
disproportionately more. -/
def termRarity (g : List (Nat × List (List Char))) (t : List Char) : ℚ :=
  1 / (1 + ((g.filter (fun p => decide (t ∈ p.2))).length : ℚ))

/-- Modelled from the spec: a relation edge's weight — the sum of the
rarity weights of the shared terms, increasing with shared count and term
specificity. -/
def edgeWeight (rarity : List Char → ℚ) (shared : List (List Char)) : ℚ :=
  (shared.map rarity).sum

/-- The shared entities of two entity sets. -/
def sharedEntities (e1 e2 : List (List Char)) : List (List Char) :=
  (e1.filter (fun t => decide (t ∈ e2))).dedup

/-- The weight of the relation edge between two businesses of the graph. -/
def relWeight (g : List (Nat × List (List Char))) (b1 b2 : Nat) : ℚ :=
  edgeWeight (termRarity g)
    (sharedEntities ((alookup g b1).getD []) ((alookup g b2).getD []))

/-- Modelled from the spec: the neighbor query — every other business with a
positive edge weight meeting the threshold, ordered by descending weight and
capped at `maxRelated`. -/
def neighbors (g : List (Nat × List (List Char))) (bid maxRelated : Nat)
    (minWeight : ℚ) : List Nat :=
  ((List.insertionSort (fun a b => b.2 ≤ a.2)
    (((g.filter (fun p => decide (p.1 ≠ bid))).map
      (fun p => (p.1, relWeight g bid p.1))).filter
        (fun q => decide (0 < q.2 ∧ minWeight ≤ q.2)))).map Prod.fst).take
    maxRelated

/-- C5: a business is never among its own neighbors, and the edge weight is
monotone non-decreasing as the shared-entity set grows while each term's
(nonnegative) rarity weight is held fixed. -/
theorem neighbors_irreflexive_weight_monotone
    (g : List (Nat × List (List Char))) (bid maxRelated : Nat)
    (minWeight : ℚ) :
    bid ∉ neighbors g bid maxRelated minWeight ∧
    ∀ rarity : List Char → ℚ, (∀ t, 0 ≤ rarity t) →
      ∀ s1 s2 : List (List Char), s1.Sublist s2 →
        edgeWeight rarity s1 ≤ edgeWeight rarity s2 := by
  constructor
  · intro hmem
    unfold neighbors at hmem
    obtain ⟨q, hq, hqfst⟩ := List.mem_map.mp (List.mem_of_mem_take hmem)
    have hq2 := (List.mem_insertionSort _).mp hq
    obtain ⟨hq3, -⟩ := List.mem_filter.mp hq2
    obtain ⟨p, hp, hpq⟩ := List.mem_map.mp hq3
    obtain ⟨-, hpne⟩ := List.mem_filter.mp hp
    rw [← hpq] at hqfst
    exact (of_decide_eq_true hpne) (hqfst ▸ rfl)
  · intro rarity hr s1 s2 hsub
    unfold edgeWeight
    refine List.Sublist.sum_le_sum (hsub.map rarity) ?_
    intro a ha
    obtain ⟨t, -, hta⟩ := List.mem_map.mp ha
    exact hta ▸ hr t

/-- C5 witness: on a concrete two-business graph, business 5 is not among
its own neighbors, and a concrete sublist of shared terms weighs no more
than its extension under the constant rarity weight one. -/
theorem neighbors_irreflexive_weight_monotone_witness :
    5 ∉ neighbors [(5, ["ab".toList]), (6, ["ab".toList])] 5 2 0 ∧
    edgeWeight (fun _ => 1) [] ≤ edgeWeight (fun _ => 1) ["ab".toList] :=
  ⟨(neighbors_irreflexive_weight_monotone
      [(5, ["ab".toList]), (6, ["ab".toList])] 5 2 0).1,
   (neighbors_irreflexive_weight_monotone
      [(5, ["ab".toList]), (6, ["ab".toList])] 5 2 0).2
     (fun _ => 1) (fun _ => by norm_num) [] ["ab".toList]
     (List.nil_sublist _)⟩

/-! ### Document-processing entry point and its legacy alias -/

/-- The two processor kinds the entry point can select. -/
inductive ProcKind where
  | multimodal
  | textual
deriving DecidableEq

/-- Object-replacement character marking embedded image content. -/
def imageMarker : Char := '￼'

/-- Modelled from the spec: content sniffing — a source containing an
embedded image marker takes the multimodal path. -/
def hasImageContent (src : List Char) : Bool :=
  src.any (fun c => c == imageMarker)

/-- The interface of the document-processing entry point. -/
structure DocumentProcessingEntryT where
  create_processor : List Char → ProcKind
  process_document : List Char → List Chunk

/-- Modelled from the spec: the unified document-processing entry point —
`create_processor` selects the multimodal or the text processor by content
sniffing, and `process_document` produces the windowed chunks of the
document's normalized text. -/
def DocumentProcessingEntry : DocumentProcessingEntryT where
  create_processor := fun src =>
    if hasImageContent src then ProcKind.multimodal else ProcKind.textual
  process_document := fun src => makeChunks 0 src

/-- The backward-compatibility alias bound in the source:
the legacy factory name is the entry-point class itself. -/
def DocumentProcessorFactory : DocumentProcessingEntryT :=
  DocumentProcessingEntry

/-- C10: the legacy name is an alias of the new entry point, so every call
through the old name — processor selection or document processing, on any
input — returns exactly what the new name returns. -/
theorem factory_alias_equivalence :
    DocumentProcessorFactory = DocumentProcessingEntry ∧
    ∀ src : List Char,
      DocumentProcessorFactory.create_processor src =
        DocumentProcessingEntry.create_processor src ∧
      DocumentProcessorFactory.process_document src =
        DocumentProcessingEntry.process_document src :=
  ⟨rfl, fun _ => ⟨rfl, rfl⟩⟩
